import Mathlib

/-!
# A shallow embedding of `btree_dag` (`src/dag/mod.rs`)

The Rust crate stores a directed acyclic graph as
`vertices : BTreeMap<T, BTreeSet<T>>`.  We instantiate the ordered key type
`T` at `Nat` and model

* `BTreeSet<T>`  as a strictly sorted `List Nat` (`VSet`), and
* `BTreeMap<T, BTreeSet<T>>` as a list of key/value pairs sorted strictly by
  key (`Graph`),

with the exact search/insert/remove traversals an ordered map performs.
Rust panics (`unwrap` on `None`) and non-termination of the unbounded
recursion in `cyclic_relationship_exists` / `prune` are modelled by an
`Option` layer: `none` means the call does not return normally.
-/

namespace BtreeDag

/-- The error type used by `src/dag/mod.rs` (`crate::Error`); only these two
variants are produced by the DAG operations. `EdgeExists` is the error the
code returns when inserting the edge would close a cycle, `VertexDoesNotExist`
when a required vertex is not a registered key. -/
inductive DagError where
  | EdgeExists : DagError
  | VertexDoesNotExist : DagError
deriving DecidableEq, Repr

/-- Model of `BTreeSet<T>`: a (by construction strictly sorted) list. -/
abbrev VSet := List Nat

/-- Model of `BTreeMap<T, BTreeSet<T>>`: a (by construction strictly sorted
by key) association list. -/
abbrev Graph := List (Nat × VSet)

/-- Model of `BTreeSet::insert`: ordered insert, no duplicates, idempotent. -/
def insertS : VSet → Nat → VSet
  | [], y => [y]
  | a :: rest, y =>
    if y < a then y :: a :: rest
    else if y = a then a :: rest
    else a :: insertS rest y

/-- Model of `BTreeMap::get`: ordered search. -/
def mapGet : Graph → Nat → Option VSet
  | [], _ => none
  | (k0, v0) :: rest, k =>
    if k = k0 then some v0
    else if k < k0 then none
    else mapGet rest k

/-- Model of `BTreeMap::insert`: returns the previously stored value (if any) and the
updated map. -/
def mapInsert : Graph → Nat → VSet → Option VSet × Graph
  | [], k, v => (none, [(k, v)])
  | (k0, v0) :: rest, k, v =>
    if k = k0 then (some v0, (k, v) :: rest)
    else if k < k0 then (none, (k, v) :: (k0, v0) :: rest)
    else
      let r := mapInsert rest k v
      (r.1, (k0, v0) :: r.2)

/-- Model of `BTreeMap::remove`: returns the removed value (if any) and the updated
map. -/
def mapRemove : Graph → Nat → Option VSet × Graph
  | [], _ => (none, [])
  | (k0, v0) :: rest, k =>
    if k = k0 then (some v0, rest)
    else if k < k0 then (none, (k0, v0) :: rest)
    else
      let r := mapRemove rest k
      (r.1, (k0, v0) :: r.2)

/-- The registered vertex keys of the map. -/
def keys (g : Graph) : List Nat := g.map Prod.fst

mutual

/-- Model of `BTreeDAG::cyclic_relationship_exists(x, y)` (mod.rs lines 33-52), with a
fuel parameter bounding the recursion depth; `none` models a Rust call whose
recursion does not terminate within that depth.  For registered `y`: if
`x ∈ adj(y)` it returns `Err(EdgeExists)`, otherwise it recurses into every
member of `adj(y)` in set order, propagating the first error via `?`.  For an
unregistered `y` it returns `Err(VertexDoesNotExist)`. -/
def cre (g : Graph) : Nat → Nat → Nat → Option (Except DagError Unit)
  | 0, _, _ => none
  | n + 1, x, y =>
    match mapGet g y with
    | none => some (Except.error DagError.VertexDoesNotExist)
    | some adjy =>
      if x ∈ adjy then some (Except.error DagError.EdgeExists)
      else creAll g n x adjy
termination_by n _ _ => (n, 0)

/-- The `for adj in adj_y { self.cyclic_relationship_exists(x, adj)?; }` loop:
stops at the first result that is not `Ok`. -/
def creAll (g : Graph) (n : Nat) (x : Nat) : List Nat → Option (Except DagError Unit)
  | [] => some (Except.ok ())
  | a :: rest =>
    match cre g n x a with
    | some (Except.ok _) => creAll g n x rest
    | r => r
termination_by l => (n, l.length + 1)

end

/-- Model of `BTreeDAG::add_vertex` (mod.rs lines 77-79): inserts `x` with an empty
successor set, returning the previous successor set if `x` was present. -/
def addVertex (g : Graph) (x : Nat) : Option VSet × Graph :=
  mapInsert g x []

/-- Model of `BTreeDAG::add_edge` (mod.rs lines 88-98), with the fuel of the inner
cycle check.  `none` models a call that panics or does not terminate. -/
def addEdgeF (n : Nat) (g : Graph) (x y : Nat) : Option (Except DagError VSet × Graph) :=
  match mapGet g x with
  | none => some (Except.error DagError.VertexDoesNotExist, g)
  | some adjx =>
    match cre g n x y with
    | none => none
    | some (Except.error e) => some (Except.error e, g)
    | some (Except.ok _) =>
      match mapInsert g x (insertS adjx y) with
      | (some old, g2) => some (Except.ok old, g2)
      | (none, _) => none

/-- Model of `BTreeDAG::remove_edge` (mod.rs lines 117-130): requires `y` and then `x`
to be registered, erases `y` from `x`'s successor set and returns the previous
set; `none` models the `unwrap` panic (unreachable once `x` is registered). -/
def removeEdge (g : Graph) (x y : Nat) : Option (Except DagError VSet × Graph) :=
  match mapGet g y with
  | none => some (Except.error DagError.VertexDoesNotExist, g)
  | some _ =>
    match mapGet g x with
    | none => some (Except.error DagError.VertexDoesNotExist, g)
    | some adjx =>
      match mapInsert g x (adjx.erase y) with
      | (some old, g2) => some (Except.ok old, g2)
      | (none, _) => none

/-- The `try_for_each` loop of `remove_vertex`: runs `remove_edge(k, x)` for
every snapshot entry in the candidate list, stopping at the first error. -/
def stripEdges (x : Nat) : List (Nat × VSet) → Graph → Option (Except DagError Unit × Graph)
  | [], g => some (Except.ok (), g)
  | p :: rest, g =>
    match removeEdge g p.1 x with
    | none => none
    | some (Except.ok _, g2) => stripEdges x rest g2
    | some (Except.error e, g2) => some (Except.error e, g2)

/-- Model of `BTreeDAG::remove_vertex` (mod.rs lines 139-156): iterates over a clone of
the map, removes every edge into `x`, then removes `x` itself, `unwrap`ping
the result.  `none` models the panic of that `unwrap` when `x` is not a
registered key. -/
def removeVertex (g : Graph) (x : Nat) : Option (Except DagError VSet × Graph) :=
  match stripEdges x (g.filter (fun p => decide (x ∈ p.2))) g with
  | none => none
  | some (Except.error e, g2) => some (Except.error e, g2)
  | some (Except.ok _, g2) =>
    match mapRemove g2 x with
    | (some old, g3) => some (Except.ok old, g3)
    | (none, _) => none

mutual

/-- Model of `BTreeDAG::prune` (mod.rs lines 186-195), with a fuel parameter bounding
the recursion depth: removes `x`, then recursively prunes each member of the
returned successor-set snapshot, propagating the first error.  `none` models
a panic inside `remove_vertex` or exhaustion of the recursion. -/
def pruneF : Nat → Graph → Nat → Option (Except DagError Unit × Graph)
  | 0, _, _ => none
  | n + 1, g, x =>
    match removeVertex g x with
    | none => none
    | some (Except.error e, g2) => some (Except.error e, g2)
    | some (Except.ok children, g2) => pruneList n children g2
termination_by n _ _ => (n, 0)

/-- The `for vertex in child_vertices { self.prune(vertex)?; }` loop. -/
def pruneList (n : Nat) : List Nat → Graph → Option (Except DagError Unit × Graph)
  | [], g => some (Except.ok (), g)
  | c :: rest, g =>
    match pruneF n g c with
    | none => none
    | some (Except.error e, g2) => some (Except.error e, g2)
    | some (Except.ok _, g2) => pruneList n rest g2
termination_by l _ => (n, l.length + 1)

end

/-- Model of `BTreeDAG::adjacent` (mod.rs lines 164-174): requires `y` and then `x`
registered, answers whether `y` is in `x`'s successor set. -/
def adjacent (g : Graph) (x y : Nat) : Except DagError Bool :=
  match mapGet g y with
  | none => Except.error DagError.VertexDoesNotExist
  | some _ =>
    match mapGet g x with
    | none => Except.error DagError.VertexDoesNotExist
    | some adjx => Except.ok (decide (y ∈ adjx))

/-- Model of `BTreeDAG::connections` (mod.rs lines 181-183). -/
def connections (g : Graph) (x : Nat) : Option VSet :=
  mapGet g x

/-- Model of `BTreeDAG::vertices` (mod.rs lines 68-70): the registered keys. -/
def verticesOf (g : Graph) : List Nat :=
  keys g

/-! ## Lemmas about the ordered-set primitive -/

theorem insertS_mem_self (s : VSet) (y : Nat) : y ∈ insertS s y := by
  induction s with
  | nil => simp [insertS]
  | cons a rest ih =>
    simp only [insertS]
    split_ifs with h1 h2
    · simp
    · simp [h2]
    · simp [ih]

theorem mem_insertS_of_mem {s : VSet} {z : Nat} (y : Nat) (h : z ∈ s) : z ∈ insertS s y := by
  induction s with
  | nil => simp at h
  | cons a rest ih =>
    simp only [insertS]
    rcases List.mem_cons.1 h with rfl | hz
    · split_ifs <;> simp
    · split_ifs <;> simp [hz, ih hz]

theorem mem_of_mem_insertS {s : VSet} {z y : Nat} (h : z ∈ insertS s y) : z = y ∨ z ∈ s := by
  induction s with
  | nil => simpa [insertS] using h
  | cons a rest ih =>
    simp only [insertS] at h
    split_ifs at h with h1 h2
    · simpa using h
    · right; exact h
    · rcases List.mem_cons.1 h with rfl | hz
      · right; simp
      · rcases ih hz with rfl | hz2
        · left; rfl
        · right; simp [hz2]

theorem insertS_sorted {s : VSet} (hs : List.Sorted (· < ·) s) (y : Nat) :
    List.Sorted (· < ·) (insertS s y) := by
  induction s with
  | nil => simp [insertS]
  | cons a rest ih =>
    rw [List.sorted_cons] at hs
    simp only [insertS]
    split_ifs with h1 h2
    · rw [List.sorted_cons]
      refine ⟨?_, by rw [List.sorted_cons]; exact hs⟩
      intro b hb
      rcases List.mem_cons.1 hb with rfl | hb2
      · exact h1
      · exact lt_trans h1 (hs.1 b hb2)
    · rw [List.sorted_cons]; exact hs
    · rw [List.sorted_cons]
      refine ⟨?_, ih hs.2⟩
      intro b hb
      rcases mem_of_mem_insertS hb with rfl | hb2
      · omega
      · exact hs.1 b hb2

theorem insertS_eq_of_mem {s : VSet} (hs : List.Sorted (· < ·) s) {y : Nat} (h : y ∈ s) :
    insertS s y = s := by
  induction s with
  | nil => simp at h
  | cons a rest ih =>
    rw [List.sorted_cons] at hs
    simp only [insertS]
    rcases List.mem_cons.1 h with rfl | hy
    · simp
    · have hay : a < y := hs.1 y hy
      rw [if_neg (by omega), if_neg (by omega), ih hs.2 hy]

/-! ## Lemmas about the ordered-map primitives -/

theorem keys_cons (k0 : Nat) (v0 : VSet) (rest : List (Nat × VSet)) :
    keys ((k0, v0) :: rest) = k0 :: keys rest := rfl

theorem sorted_keys_cons {k0 : Nat} {v0 : VSet} {rest : List (Nat × VSet)}
    (hs : List.Sorted (· < ·) (keys ((k0, v0) :: rest))) :
    (∀ a ∈ keys rest, k0 < a) ∧ List.Sorted (· < ·) (keys rest) := by
  rw [keys_cons] at hs
  exact List.sorted_cons.1 hs

theorem mapGet_cons_self {k k0 : Nat} (v0 : VSet) (rest : Graph) (h : k = k0) :
    mapGet ((k0, v0) :: rest) k = some v0 := by
  simp only [mapGet, if_pos h]

theorem mapGet_cons_lt {k k0 : Nat} (v0 : VSet) (rest : Graph) (h1 : ¬k = k0) (h2 : k < k0) :
    mapGet ((k0, v0) :: rest) k = none := by
  simp only [mapGet, if_neg h1, if_pos h2]

theorem mapGet_cons_gt {k k0 : Nat} (v0 : VSet) (rest : Graph) (h1 : ¬k = k0) (h2 : ¬k < k0) :
    mapGet ((k0, v0) :: rest) k = mapGet rest k := by
  simp only [mapGet, if_neg h1, if_neg h2]

theorem mapInsert_cons_self {k k0 : Nat} (v0 v : VSet) (rest : Graph) (h : k = k0) :
    mapInsert ((k0, v0) :: rest) k v = (some v0, (k, v) :: rest) := by
  simp only [mapInsert, if_pos h]

theorem mapInsert_cons_lt {k k0 : Nat} (v0 v : VSet) (rest : Graph) (h1 : ¬k = k0)
    (h2 : k < k0) :
    mapInsert ((k0, v0) :: rest) k v = (none, (k, v) :: (k0, v0) :: rest) := by
  simp only [mapInsert, if_neg h1, if_pos h2]

theorem mapInsert_cons_gt {k k0 : Nat} (v0 v : VSet) (rest : Graph) (h1 : ¬k = k0)
    (h2 : ¬k < k0) :
    mapInsert ((k0, v0) :: rest) k v = ((mapInsert rest k v).1, (k0, v0) :: (mapInsert rest k v).2) := by
  simp only [mapInsert, if_neg h1, if_neg h2]

theorem mapRemove_cons_self {k k0 : Nat} (v0 : VSet) (rest : Graph) (h : k = k0) :
    mapRemove ((k0, v0) :: rest) k = (some v0, rest) := by
  simp only [mapRemove, if_pos h]

theorem mapRemove_cons_lt {k k0 : Nat} (v0 : VSet) (rest : Graph) (h1 : ¬k = k0) (h2 : k < k0) :
    mapRemove ((k0, v0) :: rest) k = (none, (k0, v0) :: rest) := by
  simp only [mapRemove, if_neg h1, if_pos h2]

theorem mapRemove_cons_gt {k k0 : Nat} (v0 : VSet) (rest : Graph) (h1 : ¬k = k0) (h2 : ¬k < k0) :
    mapRemove ((k0, v0) :: rest) k = ((mapRemove rest k).1, (k0, v0) :: (mapRemove rest k).2) := by
  simp only [mapRemove, if_neg h1, if_neg h2]

theorem mapGet_none_of_forall_lt {g : Graph} {k : Nat} (h : ∀ a ∈ keys g, k < a) :
    mapGet g k = none := by
  induction g with
  | nil => rfl
  | cons p rest ih =>
    obtain ⟨k0, v0⟩ := p
    have hk0 : k < k0 := h k0 (by simp [keys])
    exact mapGet_cons_lt v0 rest (by omega) hk0

theorem mapInsert_fst (g : Graph) (k : Nat) (v : VSet) :
    (mapInsert g k v).1 = mapGet g k := by
  induction g with
  | nil => rfl
  | cons p rest ih =>
    obtain ⟨k0, v0⟩ := p
    by_cases h1 : k = k0
    · rw [mapInsert_cons_self v0 v rest h1, mapGet_cons_self v0 rest h1]
    · by_cases h2 : k < k0
      · rw [mapInsert_cons_lt v0 v rest h1 h2, mapGet_cons_lt v0 rest h1 h2]
      · rw [mapInsert_cons_gt v0 v rest h1 h2, mapGet_cons_gt v0 rest h1 h2]
        exact ih

theorem mapRemove_fst (g : Graph) (k : Nat) :
    (mapRemove g k).1 = mapGet g k := by
  induction g with
  | nil => rfl
  | cons p rest ih =>
    obtain ⟨k0, v0⟩ := p
    by_cases h1 : k = k0
    · rw [mapRemove_cons_self v0 rest h1, mapGet_cons_self v0 rest h1]
    · by_cases h2 : k < k0
      · rw [mapRemove_cons_lt v0 rest h1 h2, mapGet_cons_lt v0 rest h1 h2]
      · rw [mapRemove_cons_gt v0 rest h1 h2, mapGet_cons_gt v0 rest h1 h2]
        exact ih

theorem mapGet_mapInsert (g : Graph) (k k' : Nat) (v : VSet) :
    mapGet (mapInsert g k v).2 k' = if k' = k then some v else mapGet g k' := by
  induction g with
  | nil =>
    show mapGet [(k, v)] k' = _
    simp only [mapGet]
    split_ifs <;> rfl
  | cons p rest ih =>
    obtain ⟨k0, v0⟩ := p
    by_cases h1 : k = k0
    · rw [mapInsert_cons_self v0 v rest h1]
      show mapGet ((k, v) :: rest) k' = _
      simp only [mapGet]
      split_ifs <;> first | rfl | omega
    · by_cases h2 : k < k0
      · rw [mapInsert_cons_lt v0 v rest h1 h2]
        show mapGet ((k, v) :: (k0, v0) :: rest) k' = _
        simp only [mapGet]
        split_ifs <;> first | rfl | omega
      · rw [mapInsert_cons_gt v0 v rest h1 h2]
        show mapGet ((k0, v0) :: (mapInsert rest k v).2) k' = _
        simp only [mapGet]
        rw [ih]
        split_ifs <;> first | rfl | omega

theorem mapGet_mapInsert_ne (g : Graph) {k k' : Nat} (v : VSet) (h : k' ≠ k) :
    mapGet (mapInsert g k v).2 k' = mapGet g k' := by
  rw [mapGet_mapInsert, if_neg h]

theorem mapGet_mapInsert_self (g : Graph) (k : Nat) (v : VSet) :
    mapGet (mapInsert g k v).2 k = some v := by
  rw [mapGet_mapInsert, if_pos rfl]

theorem mapInsert_get_self {g : Graph} {k : Nat} {v : VSet} (h : mapGet g k = some v) :
    (mapInsert g k v).2 = g := by
  induction g with
  | nil => simp [mapGet] at h
  | cons p rest ih =>
    obtain ⟨k0, v0⟩ := p
    by_cases h1 : k = k0
    · rw [mapGet_cons_self v0 rest h1] at h
      obtain rfl : v0 = v := by injection h
      rw [mapInsert_cons_self v0 v0 rest h1]
      show (k, v0) :: rest = (k0, v0) :: rest
      rw [h1]
    · by_cases h2 : k < k0
      · rw [mapGet_cons_lt v0 rest h1 h2] at h
        exact Option.noConfusion h
      · rw [mapGet_cons_gt v0 rest h1 h2] at h
        rw [mapInsert_cons_gt v0 v rest h1 h2]
        show (k0, v0) :: (mapInsert rest k v).2 = (k0, v0) :: rest
        rw [ih h]

theorem keys_mapInsert_some {g : Graph} {k : Nat} {v' : VSet} (v : VSet)
    (h : mapGet g k = some v') : keys (mapInsert g k v).2 = keys g := by
  induction g with
  | nil => simp [mapGet] at h
  | cons p rest ih =>
    obtain ⟨k0, v0⟩ := p
    by_cases h1 : k = k0
    · rw [mapInsert_cons_self v0 v rest h1]
      show keys ((k, v) :: rest) = keys ((k0, v0) :: rest)
      rw [keys_cons, keys_cons, h1]
    · by_cases h2 : k < k0
      · rw [mapGet_cons_lt v0 rest h1 h2] at h
        exact Option.noConfusion h
      · rw [mapGet_cons_gt v0 rest h1 h2] at h
        rw [mapInsert_cons_gt v0 v rest h1 h2]
        show keys ((k0, v0) :: (mapInsert rest k v).2) = keys ((k0, v0) :: rest)
        rw [keys_cons, keys_cons, ih h]

theorem keys_mapRemove_some {g : Graph} {k : Nat} {v : VSet}
    (h : (mapRemove g k).1 = some v) : keys (mapRemove g k).2 = (keys g).erase k := by
  induction g with
  | nil => simp [mapRemove] at h
  | cons p rest ih =>
    obtain ⟨k0, v0⟩ := p
    by_cases h1 : k = k0
    · rw [mapRemove_cons_self v0 rest h1]
      show keys rest = (keys ((k0, v0) :: rest)).erase k
      rw [keys_cons, h1, List.erase_cons_head]
    · by_cases h2 : k < k0
      · rw [mapRemove_cons_lt v0 rest h1 h2] at h
        exact Option.noConfusion h
    
      · rw [mapRemove_cons_gt v0 rest h1 h2] at h
        rw [mapRemove_cons_gt v0 rest h1 h2]
        show keys ((k0, v0) :: (mapRemove rest k).2) = (keys ((k0, v0) :: rest)).erase k
        rw [keys_cons, keys_cons,
          List.erase_cons_tail (by simp only [beq_iff_eq]; omega)]
        simp only [List.cons.injEq, true_and]
        exact ih (by simpa using h)

theorem mapRemove_none {g : Graph} {k : Nat} (h : (mapRemove g k).1 = none) :
    (mapRemove g k).2 = g := by
  induction g with
  | nil => rfl
  | cons p rest ih =>
    obtain ⟨k0, v0⟩ := p
    by_cases h1 : k = k0
    · rw [mapRemove_cons_self v0 rest h1] at h
      exact Option.noConfusion h
    · by_cases h2 : k < k0
      · rw [mapRemove_cons_lt v0 rest h1 h2]
      · rw [mapRemove_cons_gt v0 rest h1 h2] at h
        rw [mapRemove_cons_gt v0 rest h1 h2]
        show (k0, v0) :: (mapRemove rest k).2 = (k0, v0) :: rest
        rw [ih (by simpa using h)]

theorem mapGet_mapRemove {g : Graph} (hs : List.Sorted (· < ·) (keys g)) (k k' : Nat) :
    mapGet (mapRemove g k).2 k' = if k' = k then none else mapGet g k' := by
  induction g with
  | nil =>
    show mapGet [] k' = _
    simp only [mapGet]
    split_ifs <;> rfl
  | cons p rest ih =>
    obtain ⟨k0, v0⟩ := p
    have hcons := sorted_keys_cons hs
    by_cases h1 : k = k0
    · rw [mapRemove_cons_self v0 rest h1]
      subst h1
      split_ifs with h3
      · subst h3; exact mapGet_none_of_forall_lt hcons.1
      · by_cases h4 : k' < k
        · rw [mapGet_cons_lt v0 rest h3 h4]
          exact mapGet_none_of_forall_lt (by intro a ha; exact lt_trans h4 (hcons.1 a ha))
        · rw [mapGet_cons_gt v0 rest h3 h4]
    · by_cases h2 : k < k0
      · rw [mapRemove_cons_lt v0 rest h1 h2]
        split_ifs with h3
        · subst h3
          exact mapGet_cons_lt v0 rest h1 h2
        · rfl
      · rw [mapRemove_cons_gt v0 rest h1 h2]
        show mapGet ((k0, v0) :: (mapRemove rest k).2) k' = _
        by_cases h3 : k' = k0
        · rw [mapGet_cons_self _ _ h3, if_neg (by omega), mapGet_cons_self v0 rest h3]
        · by_cases h4 : k' < k0
          · rw [mapGet_cons_lt _ _ h3 h4, mapGet_cons_lt v0 rest h3 h4]
            split_ifs <;> rfl
          · rw [mapGet_cons_gt _ _ h3 h4, mapGet_cons_gt v0 rest h3 h4]
            exact ih hcons.2

theorem mapGet_mem {g : Graph} {k : Nat} {v : VSet} (h : mapGet g k = some v) :
    (k, v) ∈ g := by
  induction g with
  | nil => simp [mapGet] at h
  | cons p rest ih =>
    obtain ⟨k0, v0⟩ := p
    by_cases h1 : k = k0
    · rw [mapGet_cons_self v0 rest h1] at h
      obtain rfl : v0 = v := by injection h
      subst h1; simp
    · by_cases h2 : k < k0
      · rw [mapGet_cons_lt v0 rest h1 h2] at h
        exact Option.noConfusion h
      · rw [mapGet_cons_gt v0 rest h1 h2] at h
        exact List.mem_cons_of_mem _ (ih h)

theorem mapGet_eq_of_mem {g : Graph} (hs : List.Sorted (· < ·) (keys g)) {k : Nat} {v : VSet}
    (h : (k, v) ∈ g) : mapGet g k = some v := by
  induction g with
  | nil => simp at h
  | cons p rest ih =>
    obtain ⟨k0, v0⟩ := p
    have hcons := sorted_keys_cons hs
    rcases List.mem_cons.1 h with heq | hmem
    · injection heq with e1 e2
      subst e1; subst e2
      exact mapGet_cons_self v rest rfl
    · have hk : k0 < k := by
        refine hcons.1 k ?_
        simpa [keys] using List.mem_map_of_mem Prod.fst hmem
      rw [mapGet_cons_gt v0 rest (by omega) (by omega)]
      exact ih hcons.2 hmem

theorem mem_keys_mapInsert {rest : Graph} {k b : Nat} {v : VSet}
    (hmem : b ∈ keys (mapInsert rest k v).2) : b = k ∨ b ∈ keys rest := by
  induction rest with
  | nil => simpa [mapInsert, keys] using hmem
  | cons q rest2 ih2 =>
    obtain ⟨k1, v1⟩ := q
    by_cases h1 : k = k1
    · rw [mapInsert_cons_self v1 v rest2 h1, keys_cons] at hmem
      rcases List.mem_cons.1 hmem with rfl | h2
      · exact Or.inl rfl
      · right; rw [keys_cons]; subst h1; exact List.mem_cons_of_mem _ h2
    · by_cases h2 : k < k1
      · rw [mapInsert_cons_lt v1 v rest2 h1 h2, keys_cons] at hmem
        rcases List.mem_cons.1 hmem with rfl | h3
        · exact Or.inl rfl
        · exact Or.inr h3
      · rw [mapInsert_cons_gt v1 v rest2 h1 h2] at hmem
        replace hmem : b ∈ keys ((k1, v1) :: (mapInsert rest2 k v).2) := hmem
        rw [keys_cons] at hmem
        rcases List.mem_cons.1 hmem with rfl | h3
        · right; rw [keys_cons]; simp
        · rcases ih2 h3 with rfl | h4
          · exact Or.inl rfl
          · right; rw [keys_cons]; exact List.mem_cons_of_mem _ h4

theorem keys_sorted_mapInsert {g : Graph} (hs : List.Sorted (· < ·) (keys g)) (k : Nat)
    (v : VSet) : List.Sorted (· < ·) (keys (mapInsert g k v).2) := by
  induction g with
  | nil => simp [mapInsert, keys]
  | cons p rest ih =>
    obtain ⟨k0, v0⟩ := p
    have hcons := sorted_keys_cons hs
    by_cases h1 : k = k0
    · rw [mapInsert_cons_self v0 v rest h1]
      show List.Sorted (· < ·) (keys ((k, v) :: rest))
      rw [keys_cons, List.sorted_cons]
      subst h1
      exact hcons
    · by_cases h2 : k < k0
      · rw [mapInsert_cons_lt v0 v rest h1 h2]
        show List.Sorted (· < ·) (keys ((k, v) :: (k0, v0) :: rest))
        rw [keys_cons, keys_cons, List.sorted_cons, List.sorted_cons]
        refine ⟨?_, hcons⟩
        intro b hb
        rcases List.mem_cons.1 hb with rfl | hb2
        · exact h2
        · exact lt_trans h2 (hcons.1 b hb2)
      · rw [mapInsert_cons_gt v0 v rest h1 h2]
        show List.Sorted (· < ·) (keys ((k0, v0) :: (mapInsert rest k v).2))
        rw [keys_cons, List.sorted_cons]
        refine ⟨?_, ih hcons.2⟩
        intro b hb
        rcases mem_keys_mapInsert hb with rfl | hb2
        · omega
        · exact hcons.1 b hb2

/-! ## Well-formedness and graph predicates

`WF` states exactly what holds of the Rust representation by construction:
the `BTreeMap` keys are strictly sorted and every stored `BTreeSet` is a
strictly sorted list.  `Closed` says every successor is itself a registered
key.  Both quantify over the entry list so that they are decidable on
concrete graphs. -/

def WF (g : Graph) : Prop :=
  List.Sorted (· < ·) (keys g) ∧ ∀ p ∈ g, List.Sorted (· < ·) p.2

def Closed (g : Graph) : Prop :=
  ∀ p ∈ g, ∀ a ∈ p.2, (mapGet g a).isSome = true

/-- No stored successor set mentions `d`. -/
def NoRefGet (d : Nat) (g : Graph) : Prop :=
  ∀ k adj, mapGet g k = some adj → d ∉ adj

/-- The edge relation of the map: `b` is a direct successor of `a`. -/
def Edge (g : Graph) (a b : Nat) : Prop :=
  ∃ adj, mapGet g a = some adj ∧ b ∈ adj

/-- Reachability: `Reaches g a b` states there is a non-empty directed path from `a` to `b`. -/
inductive Reaches (g : Graph) : Nat → Nat → Prop where
  | single {a b : Nat} : Edge g a b → Reaches g a b
  | head {a b c : Nat} : Edge g a b → Reaches g b c → Reaches g a c

/-- A strictly descending rank function along edges; its existence is
equivalent to acyclicity of the finite graph and makes the recursion depth
of the cycle check explicit. -/
def DescRank (g : Graph) (f : Nat → Nat) : Prop :=
  ∀ p ∈ g, ∀ a ∈ p.2, f a < f p.1

theorem wf_val_of_get {g : Graph} (hwf : WF g) {k : Nat} {v : VSet}
    (h : mapGet g k = some v) : List.Sorted (· < ·) v :=
  hwf.2 _ (mapGet_mem h)

theorem closed_get {g : Graph} (hc : Closed g) {k a : Nat} {adj : VSet}
    (h : mapGet g k = some adj) (ha : a ∈ adj) : ∃ w, mapGet g a = some w := by
  have := hc _ (mapGet_mem h) a ha
  cases hw : mapGet g a with
  | none => rw [hw] at this; simp at this
  | some w => exact ⟨w, rfl⟩

theorem descRank_get {g : Graph} {f : Nat → Nat} (hr : DescRank g f) {k a : Nat} {adj : VSet}
    (h : mapGet g k = some adj) (ha : a ∈ adj) : f a < f k :=
  hr _ (mapGet_mem h) a ha

theorem edge_rank {g : Graph} {f : Nat → Nat} (hr : DescRank g f) {a b : Nat}
    (h : Edge g a b) : f b < f a := by
  obtain ⟨adj, hget, hmem⟩ := h
  exact descRank_get hr hget hmem

theorem reaches_rank {g : Graph} {f : Nat → Nat} (hr : DescRank g f) {a b : Nat}
    (h : Reaches g a b) : f b < f a := by
  induction h with
  | single he => exact edge_rank hr he
  | head he _ ih => exact lt_trans ih (edge_rank hr he)

theorem not_reaches_self {g : Graph} {f : Nat → Nat} (hr : DescRank g f) (a : Nat) :
    ¬ Reaches g a a := fun h => absurd (reaches_rank hr h) (lt_irrefl _)

theorem no_edge_of_get_none {g : Graph} {a : Nat} (h : mapGet g a = none) (b : Nat) :
    ¬ Edge g a b := by
  rintro ⟨adj, hget, -⟩
  rw [h] at hget
  exact Option.noConfusion hget

theorem not_reaches_of_get_none {g : Graph} {a : Nat} (h : mapGet g a = none) (b : Nat) :
    ¬ Reaches g a b := by
  intro hr
  cases hr with
  | single he => exact no_edge_of_get_none h _ he
  | head he _ => exact no_edge_of_get_none h _ he

/-! ## Specification of `remove_edge` -/

theorem removeEdge_err_y {g : Graph} {x y : Nat} (hy : mapGet g y = none) :
    removeEdge g x y = some (Except.error DagError.VertexDoesNotExist, g) := by
  simp only [removeEdge, hy]

theorem removeEdge_err_x {g : Graph} {x y : Nat} {adjy : VSet}
    (hy : mapGet g y = some adjy) (hx : mapGet g x = none) :
    removeEdge g x y = some (Except.error DagError.VertexDoesNotExist, g) := by
  simp only [removeEdge, hy, hx]

theorem removeEdge_ok {g : Graph} {x y : Nat} {adjx adjy : VSet}
    (hy : mapGet g y = some adjy) (hx : mapGet g x = some adjx) :
    ∃ g2, removeEdge g x y = some (Except.ok adjx, g2) ∧
      (∀ k, mapGet g2 k = if k = x then some (adjx.erase y) else mapGet g k) ∧
      keys g2 = keys g := by
  have hfst := mapInsert_fst g x (adjx.erase y)
  rcases hmi : mapInsert g x (adjx.erase y) with ⟨o, g2⟩
  rw [hmi] at hfst
  simp only at hfst
  rw [hx] at hfst
  subst hfst
  refine ⟨g2, ?_, ?_, ?_⟩
  · simp only [removeEdge, hy, hx, hmi]
  · intro k
    have := mapGet_mapInsert g x k (adjx.erase y)
    rw [hmi] at this
    simpa using this
  · have := @keys_mapInsert_some g x adjx (adjx.erase y) hx
    rw [hmi] at this
    simpa using this

/-! ## Specification of `remove_vertex` -/

theorem stripEdges_ok (x : Nat) :
    ∀ (l : List (Nat × VSet)) (g : Graph),
      (∃ sx, mapGet g x = some sx) →
      (∀ p ∈ l, ∃ v, mapGet g p.1 = some v) →
      (l.map Prod.fst).Nodup →
      ∃ g', stripEdges x l g = some (Except.ok (), g') ∧
        (∀ k, mapGet g' k =
          if k ∈ l.map Prod.fst then (mapGet g k).map (fun a => a.erase x) else mapGet g k) ∧
        keys g' = keys g := by
  intro l
  induction l with
  | nil =>
    intro g _ _ _
    exact ⟨g, rfl, by intro k; simp, rfl⟩
  | cons p rest ih =>
    intro g hx hreg hnd
    obtain ⟨sx, hsx⟩ := hx
    obtain ⟨w, hw⟩ := hreg p (by simp)
    obtain ⟨g2, he, hchar, hkeys⟩ := removeEdge_ok hsx hw
    have hp1 : p.1 ∉ rest.map Prod.fst := (List.nodup_cons.1 hnd).1
    have hx2 : ∃ sx2, mapGet g2 x = some sx2 := by
      rcases eq_or_ne x p.1 with h | h
      · exact ⟨w.erase x, by rw [hchar, if_pos h]⟩
      · exact ⟨sx, by rw [hchar, if_neg h]; exact hsx⟩
    have hreg2 : ∀ q ∈ rest, ∃ v, mapGet g2 q.1 = some v := by
      intro q hq
      obtain ⟨v, hv⟩ := hreg q (List.mem_cons_of_mem _ hq)
      rcases eq_or_ne q.1 p.1 with h | h
      · exact ⟨w.erase x, by rw [hchar, if_pos h]⟩
      · exact ⟨v, by rw [hchar, if_neg h]; exact hv⟩
    have hnd2 : (rest.map Prod.fst).Nodup := (List.nodup_cons.1 hnd).2
    obtain ⟨g', hstrip, hchar2, hkeys2⟩ := ih g2 hx2 hreg2 hnd2
    refine ⟨g', ?_, ?_, hkeys2.trans hkeys⟩
    · show stripEdges x (p :: rest) g = some (Except.ok (), g')
      simp only [stripEdges, he, hstrip]
    · intro k
      rw [hchar2 k]
      by_cases hk1 : k ∈ rest.map Prod.fst
      · have hkp : k ≠ p.1 := fun h => hp1 (h ▸ hk1)
        rw [if_pos hk1, if_pos (by simp only [List.map_cons, List.mem_cons]; exact Or.inr hk1)]
        rw [hchar k, if_neg hkp]
      · rw [if_neg hk1]
        by_cases hkp : k = p.1
        · rw [hchar k, if_pos hkp,
            if_pos (by simp only [List.map_cons, List.mem_cons]; exact Or.inl hkp), hkp, hw]
          rfl
        · rw [hchar k, if_neg hkp,
            if_neg (by simp only [List.map_cons, List.mem_cons]; tauto)]

theorem keys_filter_nodup {g : Graph} (hws : List.Sorted (· < ·) (keys g))
    (q : Nat × VSet → Bool) : ((g.filter q).map Prod.fst).Nodup := by
  have hsub : List.Sublist ((g.filter q).map Prod.fst) (keys g) :=
    (List.filter_sublist g).map Prod.fst
  have : List.Sorted (· < ·) ((g.filter q).map Prod.fst) := hws.sublist hsub
  exact this.nodup

theorem removeVertex_ok {g : Graph} {x : Nat} {adjx : VSet}
    (hws : List.Sorted (· < ·) (keys g)) (hx : mapGet g x = some adjx) :
    ∃ g', removeVertex g x = some (Except.ok (adjx.erase x), g') ∧
      mapGet g' x = none ∧
      (∀ k, k ≠ x → mapGet g' k = (mapGet g k).map (fun a => a.erase x)) ∧
      keys g' = (keys g).erase x := by
  have hregl : ∀ p ∈ g.filter (fun p => decide (x ∈ p.2)), ∃ v, mapGet g p.1 = some v := by
    intro p hp
    exact ⟨p.2, mapGet_eq_of_mem hws (List.mem_of_mem_filter hp)⟩
  obtain ⟨g2, hstrip, hchar, hkeys⟩ :=
    stripEdges_ok x (g.filter (fun p => decide (x ∈ p.2))) g ⟨adjx, hx⟩ hregl
      (keys_filter_nodup hws _)
  have hmemkeys : ∀ k v, mapGet g k = some v → x ∈ v →
      k ∈ (g.filter (fun p => decide (x ∈ p.2))).map Prod.fst := by
    intro k v hkv hxv
    exact List.mem_map_of_mem Prod.fst (List.mem_filter.2 ⟨mapGet_mem hkv, by simpa using hxv⟩)
  have huniform : ∀ k, mapGet g2 k = (mapGet g k).map (fun a => a.erase x) := by
    intro k
    rw [hchar k]
    by_cases hk : k ∈ (g.filter (fun p => decide (x ∈ p.2))).map Prod.fst
    · rw [if_pos hk]
    · rw [if_neg hk]
      cases hkv : mapGet g k with
      | none => rfl
      | some v =>
        have hxv : x ∉ v := fun hxv => hk (hmemkeys k v hkv hxv)
        simp [List.erase_of_not_mem hxv]
  have hsxg2 : mapGet g2 x = some (adjx.erase x) := by
    rw [huniform x, hx]
    rfl
  have hws2 : List.Sorted (· < ·) (keys g2) := hkeys ▸ hws
  have hrfst : (mapRemove g2 x).1 = some (adjx.erase x) := by
    rw [mapRemove_fst]; exact hsxg2
  rcases hmr : mapRemove g2 x with ⟨o, g3⟩
  rw [hmr] at hrfst
  simp only at hrfst
  subst hrfst
  have hkeys3 : keys g3 = (keys g).erase x := by
    have := keys_mapRemove_some (by rw [hmr])
    rw [hmr] at this
    simpa [hkeys] using this
  refine ⟨g3, ?_, ?_, ?_, hkeys3⟩
  · simp only [removeVertex, hstrip, hmr]
  · have := mapGet_mapRemove hws2 x x
    rw [hmr] at this
    simpa using this
  · intro k hk
    have := mapGet_mapRemove hws2 x k
    rw [hmr] at this
    simp only at this
    rw [this, if_neg hk, huniform k]

theorem removeVertex_error {g : Graph} {x : Nat} {e : DagError} {g' : Graph}
    (hws : List.Sorted (· < ·) (keys g))
    (h : removeVertex g x = some (Except.error e, g')) :
    g' = g ∧ mapGet g x = none ∧ e = DagError.VertexDoesNotExist := by
  cases hget : mapGet g x with
  | some adjx =>
    obtain ⟨g2, heq, -⟩ := removeVertex_ok hws hget
    rw [heq] at h
    injection h with h2
    injection h2 with h3
    exact absurd h3 (by simp)
  | none =>
    cases hl : g.filter (fun p => decide (x ∈ p.2)) with
    | nil =>
      have hstrip : stripEdges x (g.filter (fun p => decide (x ∈ p.2))) g =
          some (Except.ok (), g) := by rw [hl]; rfl
      have h1 : (mapRemove g x).1 = none := by rw [mapRemove_fst]; exact hget
      rcases hmr2 : mapRemove g x with ⟨o, g3⟩
      rw [hmr2] at h1
      have ho : o = none := h1
      subst ho
      have : removeVertex g x = none := by
        simp only [removeVertex, hstrip, hmr2]
      rw [this] at h
      exact Option.noConfusion h
    | cons p rest =>
      have hre : removeEdge g p.1 x = some (Except.error DagError.VertexDoesNotExist, g) :=
        removeEdge_err_y hget
      have hstrip : stripEdges x (g.filter (fun p => decide (x ∈ p.2))) g =
          some (Except.error DagError.VertexDoesNotExist, g) := by
        rw [hl]
        simp only [stripEdges, hre]
      have : removeVertex g x = some (Except.error DagError.VertexDoesNotExist, g) := by
        simp only [removeVertex, hstrip]
      rw [this] at h
      injection h with h2
      injection h2 with h3 h4
      injection h3 with h5
      exact ⟨h4.symm, rfl, h5.symm⟩

/-! ## The invariant transported by `prune`

`PrunePost g g'` collects everything a (possibly failing) cascade step
guarantees about the state `g'` it leaves behind: well-formedness, closure
transport, that no key appears from nowhere, that a fully stripped vertex
stays stripped, and that any key the step deleted is left unreferenced. -/

def PrunePost (g g' : Graph) : Prop :=
  WF g' ∧ (Closed g → Closed g') ∧
  (∀ k, (∃ v, mapGet g' k = some v) → ∃ v, mapGet g k = some v) ∧
  (∀ d, mapGet g d = none → NoRefGet d g → mapGet g' d = none ∧ NoRefGet d g') ∧
  (∀ d, mapGet g d ≠ none → mapGet g' d = none → NoRefGet d g')

theorem prunePost_refl {g : Graph} (hwf : WF g) : PrunePost g g :=
  ⟨hwf, fun h => h, fun _ h => h, fun _ h1 h2 => ⟨h1, h2⟩, fun _ h1 h2 => absurd h2 h1⟩

theorem prunePost_trans {g g2 g3 : Graph} (h1 : PrunePost g g2) (h2 : PrunePost g2 g3) :
    PrunePost g g3 := by
  obtain ⟨hw1, hc1, hk1, hd1, he1⟩ := h1
  obtain ⟨hw2, hc2, hk2, hd2, he2⟩ := h2
  refine ⟨hw2, fun hc => hc2 (hc1 hc), fun k hk => hk1 k (hk2 k hk), ?_, ?_⟩
  · intro d hdn hnr
    obtain ⟨hdn2, hnr2⟩ := hd1 d hdn hnr
    exact hd2 d hdn2 hnr2
  · intro d hdsome hdnone
    cases hmid : mapGet g2 d with
    | none =>
      have hnr2 := he1 d hdsome hmid
      exact (hd2 d hmid hnr2).2
    | some v =>
      exact he2 d (by rw [hmid]; simp) hdnone

theorem removeVertex_none_get {g : Graph} {x : Nat} (hget : mapGet g x = none) :
    removeVertex g x = none ∨
      removeVertex g x = some (Except.error DagError.VertexDoesNotExist, g) := by
  cases hl : g.filter (fun p => decide (x ∈ p.2)) with
  | nil =>
    left
    have hstrip : stripEdges x (g.filter (fun p => decide (x ∈ p.2))) g =
        some (Except.ok (), g) := by rw [hl]; rfl
    have h1 : (mapRemove g x).1 = none := by rw [mapRemove_fst]; exact hget
    rcases hmr2 : mapRemove g x with ⟨o, g3⟩
    rw [hmr2] at h1
    have ho : o = none := h1
    subst ho
    simp only [removeVertex, hstrip, hmr2]
  | cons p rest =>
    right
    have hre : removeEdge g p.1 x = some (Except.error DagError.VertexDoesNotExist, g) :=
      removeEdge_err_y hget
    have hstrip : stripEdges x (g.filter (fun p => decide (x ∈ p.2))) g =
        some (Except.error DagError.VertexDoesNotExist, g) := by
      rw [hl]; simp only [stripEdges, hre]
    simp only [removeVertex, hstrip]

theorem removeVertex_ok_inv {g : Graph} {x : Nat} {s : VSet} {g' : Graph}
    (hws : List.Sorted (· < ·) (keys g)) (h : removeVertex g x = some (Except.ok s, g')) :
    ∃ adjx, mapGet g x = some adjx ∧ s = adjx.erase x ∧
      mapGet g' x = none ∧
      (∀ k, k ≠ x → mapGet g' k = (mapGet g k).map (fun a => a.erase x)) ∧
      keys g' = (keys g).erase x := by
  cases hget : mapGet g x with
  | some adjx =>
    obtain ⟨g2, heq, hx', hchar, hkeys⟩ := removeVertex_ok hws hget
    rw [heq] at h
    injection h with h2
    injection h2 with h3 h4
    injection h3 with h5
    subst h4
    exact ⟨adjx, rfl, h5.symm, hx', hchar, hkeys⟩
  | none =>
    rcases removeVertex_none_get hget with hn | he
    · rw [hn] at h
      exact Option.noConfusion h
    · rw [he] at h
      injection h with h2
      injection h2 with h3 h4
      exact absurd h3 (by simp)

theorem removeVertex_post {g : Graph} {x : Nat} {s : VSet} {g' : Graph} (hwf : WF g)
    (h : removeVertex g x = some (Except.ok s, g')) : PrunePost g g' := by
  obtain ⟨adjx, hget, hs, hx', hchar, hkeys⟩ := removeVertex_ok_inv hwf.1 h
  have hws' : List.Sorted (· < ·) (keys g') := by
    rw [hkeys]; exact hwf.1.sublist (List.erase_sublist x (keys g))
  have hget' : ∀ k v', mapGet g' k = some v' →
      k ≠ x ∧ ∃ v, mapGet g k = some v ∧ v' = v.erase x := by
    intro k v' hk
    have hkx : k ≠ x := by
      rintro rfl
      rw [hx'] at hk
      exact Option.noConfusion hk
    refine ⟨hkx, ?_⟩
    rw [hchar k hkx] at hk
    cases hv : mapGet g k with
    | none => rw [hv] at hk; exact Option.noConfusion hk
    | some v =>
      rw [hv] at hk
      refine ⟨v, rfl, ?_⟩
      injection hk with hh
      exact hh.symm
  refine ⟨⟨hws', ?_⟩, ?_, ?_, ?_, ?_⟩
  · intro p hp
    obtain ⟨hkx, v, hv, hv'⟩ := hget' p.1 p.2 (mapGet_eq_of_mem hws' hp)
    rw [hv']
    exact (wf_val_of_get hwf hv).sublist (List.erase_sublist x v)
  · intro hc p hp a ha
    obtain ⟨hkx, v, hv, hv'⟩ := hget' p.1 p.2 (mapGet_eq_of_mem hws' hp)
    rw [hv'] at ha
    have hnd : v.Nodup := (wf_val_of_get hwf hv).nodup
    have hax : a ≠ x ∧ a ∈ v := hnd.mem_erase_iff.1 ha
    obtain ⟨w, hw⟩ := closed_get hc hv hax.2
    rw [hchar a hax.1, hw]
    rfl
  · intro k hk
    obtain ⟨v', hv'⟩ := hk
    obtain ⟨_, v, hv, _⟩ := hget' k v' hv'
    exact ⟨v, hv⟩
  · intro d hdn hnr
    constructor
    · by_cases hdx : d = x
      · rw [hdx]; exact hx'
      · rw [hchar d hdx, hdn]; rfl
    · intro k adj' hk
      obtain ⟨hkx, v, hv, hv'⟩ := hget' k adj' hk
      rw [hv']
      intro hmem
      exact hnr k v hv (List.mem_of_mem_erase hmem)
  · intro d hdsome hdnone
    have hdx : d = x := by
      by_contra hne
      rw [hchar d hne] at hdnone
      cases hv : mapGet g d with
      | none => exact hdsome hv
      | some v => rw [hv] at hdnone; exact Option.noConfusion hdnone
    subst hdx
    intro k adj' hk
    obtain ⟨hkx, v, hv, hv'⟩ := hget' k adj' hk
    rw [hv']
    have hnd : v.Nodup := (wf_val_of_get hwf hv).nodup
    exact hnd.not_mem_erase

theorem pruneF_zero (g : Graph) (x : Nat) : pruneF 0 g x = none := by
  simp [pruneF]

theorem pruneF_rv_none {g : Graph} {x : Nat} (n : Nat) (h : removeVertex g x = none) :
    pruneF (n + 1) g x = none := by
  simp only [pruneF, h]

theorem pruneF_rv_error {g g2 : Graph} {x : Nat} {e : DagError} (n : Nat)
    (h : removeVertex g x = some (Except.error e, g2)) :
    pruneF (n + 1) g x = some (Except.error e, g2) := by
  simp only [pruneF, h]

theorem pruneF_rv_ok {g g2 : Graph} {x : Nat} {s : VSet} (n : Nat)
    (h : removeVertex g x = some (Except.ok s, g2)) :
    pruneF (n + 1) g x = pruneList n s g2 := by
  simp only [pruneF, h]

theorem pruneList_nil (n : Nat) (g : Graph) : pruneList n [] g = some (Except.ok (), g) := by
  simp [pruneList]

theorem pruneList_cons_none {n : Nat} {g : Graph} {c : Nat} (rest : List Nat)
    (h : pruneF n g c = none) : pruneList n (c :: rest) g = none := by
  simp only [pruneList, h]

theorem pruneList_cons_error {n : Nat} {g g2 : Graph} {c : Nat} {e : DagError}
    (rest : List Nat) (h : pruneF n g c = some (Except.error e, g2)) :
    pruneList n (c :: rest) g = some (Except.error e, g2) := by
  simp only [pruneList, h]

theorem pruneList_cons_ok {n : Nat} {g g2 : Graph} {c : Nat} (rest : List Nat)
    (h : pruneF n g c = some (Except.ok (), g2)) :
    pruneList n (c :: rest) g = pruneList n rest g2 := by
  simp only [pruneList, h]

theorem prune_post : ∀ n : Nat,
    (∀ g x r g', WF g → pruneF n g x = some (r, g') → PrunePost g g') ∧
    (∀ l g r g', WF g → pruneList n l g = some (r, g') → PrunePost g g') := by
  intro n
  induction n with
  | zero =>
    constructor
    · intro g x r g' hwf h
      rw [pruneF_zero] at h
      exact Option.noConfusion h
    · intro l g r g' hwf h
      cases l with
      | nil =>
        rw [pruneList_nil] at h
        injection h with h2
        injection h2 with h3 h4
        subst h4
        exact prunePost_refl hwf
      | cons c rest =>
        rw [pruneList_cons_none rest (pruneF_zero g c)] at h
        exact Option.noConfusion h
  | succ n ihn =>
    have hF : ∀ g x r g', WF g → pruneF (n + 1) g x = some (r, g') → PrunePost g g' := by
      intro g x r g' hwf h
      cases hrv : removeVertex g x with
      | none =>
        rw [pruneF_rv_none n hrv] at h
        exact Option.noConfusion h
      | some pr =>
        obtain ⟨rr, g2⟩ := pr
        cases rr with
        | error e =>
          rw [pruneF_rv_error n hrv] at h
          injection h with h2
          injection h2 with h3 h4
          subst h4
          obtain ⟨hg2, -, -⟩ := removeVertex_error hwf.1 hrv
          rw [hg2]
          exact prunePost_refl hwf
        | ok children =>
          rw [pruneF_rv_ok n hrv] at h
          have hpost1 : PrunePost g g2 := removeVertex_post hwf hrv
          exact prunePost_trans hpost1 (ihn.2 children g2 r g' hpost1.1 h)
    refine ⟨hF, ?_⟩
    intro l
    induction l with
    | nil =>
      intro g r g' hwf h
      rw [pruneList_nil] at h
      injection h with h2
      injection h2 with h3 h4
      subst h4
      exact prunePost_refl hwf
    | cons c rest ihl =>
      intro g r g' hwf h
      cases hp : pruneF (n + 1) g c with
      | none =>
        rw [pruneList_cons_none rest hp] at h
        exact Option.noConfusion h
      | some pr =>
        obtain ⟨rr, g2⟩ := pr
        cases rr with
        | error e =>
          rw [pruneList_cons_error rest hp] at h
          injection h with h2
          injection h2 with h3 h4
          subst h4
          exact hF g c _ _ hwf hp
        | ok u =>
          obtain rfl : u = () := rfl
          rw [pruneList_cons_ok rest hp] at h
          have hpost1 : PrunePost g g2 := hF g c _ g2 hwf hp
          exact prunePost_trans hpost1 (ihl g2 r g' hpost1.1 h)

/-! ## Correctness of the cycle check on closed acyclic graphs -/

theorem cre_zero (g : Graph) (x y : Nat) : cre g 0 x y = none := by
  simp [cre]

theorem cre_succ_unreg {g : Graph} {y : Nat} (n x : Nat) (h : mapGet g y = none) :
    cre g (n + 1) x y = some (Except.error DagError.VertexDoesNotExist) := by
  simp only [cre, h]

theorem cre_succ_mem {g : Graph} {y x : Nat} {adjy : VSet} (n : Nat)
    (h : mapGet g y = some adjy) (hm : x ∈ adjy) :
    cre g (n + 1) x y = some (Except.error DagError.EdgeExists) := by
  simp only [cre, h, if_pos hm]

theorem cre_succ_rec {g : Graph} {y x : Nat} {adjy : VSet} (n : Nat)
    (h : mapGet g y = some adjy) (hm : x ∉ adjy) :
    cre g (n + 1) x y = creAll g n x adjy := by
  simp only [cre, h, if_neg hm]

theorem creAll_nil (g : Graph) (n x : Nat) : creAll g n x [] = some (Except.ok ()) := by
  simp [creAll]

theorem creAll_cons_ok {g : Graph} {n x a : Nat} (rest : List Nat)
    (h : cre g n x a = some (Except.ok ())) :
    creAll g n x (a :: rest) = creAll g n x rest := by
  simp only [creAll, h]

theorem creAll_cons_error {g : Graph} {n x a : Nat} {e : DagError} (rest : List Nat)
    (h : cre g n x a = some (Except.error e)) :
    creAll g n x (a :: rest) = some (Except.error e) := by
  simp only [creAll, h]

theorem creAll_cons_none {g : Graph} {n x a : Nat} (rest : List Nat)
    (h : cre g n x a = none) : creAll g n x (a :: rest) = none := by
  simp only [creAll, h]

theorem creAll_ok {g : Graph} {n x : Nat} :
    ∀ l : List Nat, (∀ a ∈ l, cre g n x a = some (Except.ok ())) →
      creAll g n x l = some (Except.ok ()) := by
  intro l
  induction l with
  | nil => intro _; exact creAll_nil g n x
  | cons a rest ih =>
    intro hall
    rw [creAll_cons_ok rest (hall a (by simp))]
    exact ih fun b hb => hall b (List.mem_cons_of_mem _ hb)

theorem creAll_error {g : Graph} {n x : Nat} :
    ∀ l : List Nat,
      (∀ a ∈ l, cre g n x a = some (Except.ok ()) ∨
        cre g n x a = some (Except.error DagError.EdgeExists)) →
      (∃ a ∈ l, cre g n x a = some (Except.error DagError.EdgeExists)) →
      creAll g n x l = some (Except.error DagError.EdgeExists) := by
  intro l
  induction l with
  | nil =>
    rintro _ ⟨a, ha, -⟩
    simp at ha
  | cons a rest ih =>
    rintro hall ⟨b, hb, hberr⟩
    rcases hall a (by simp) with hok | herr
    · rcases List.mem_cons.1 hb with rfl | hbr
      · rw [hok] at hberr
        injection hberr with hh
        exact absurd hh (by simp)
      · rw [creAll_cons_ok rest hok]
        exact ih (fun c hc => hall c (List.mem_cons_of_mem _ hc)) ⟨b, hbr, hberr⟩
    · exact creAll_cons_error rest herr

theorem cre_correct {g : Graph} {f : Nat → Nat} (hcl : Closed g)
    (hrk : DescRank g f) :
    ∀ n y, f y < n → ∀ x adjy, mapGet g y = some adjy →
      (¬ Reaches g y x → cre g n x y = some (Except.ok ())) ∧
      (Reaches g y x → cre g n x y = some (Except.error DagError.EdgeExists)) := by
  intro n
  induction n with
  | zero => intro y hy; omega
  | succ n ih =>
    intro y hy x adjy hget
    constructor
    · intro hnr
      have hxmem : x ∉ adjy := fun hm => hnr (Reaches.single ⟨adjy, hget, hm⟩)
      rw [cre_succ_rec n hget hxmem]
      apply creAll_ok
      intro a ha
      obtain ⟨w, hw⟩ := closed_get hcl hget ha
      have hfa : f a < n := by
        have := descRank_get hrk hget ha
        omega
      have hnra : ¬ Reaches g a x := fun hr2 => hnr (Reaches.head ⟨adjy, hget, ha⟩ hr2)
      exact (ih a hfa x w hw).1 hnra
    · intro hr
      by_cases hxmem : x ∈ adjy
      · exact cre_succ_mem n hget hxmem
      · rw [cre_succ_rec n hget hxmem]
        apply creAll_error
        · intro a ha
          obtain ⟨w, hw⟩ := closed_get hcl hget ha
          have hfa : f a < n := by
            have := descRank_get hrk hget ha
            omega
          rcases Classical.em (Reaches g a x) with hre | hnre
          · exact Or.inr ((ih a hfa x w hw).2 hre)
          · exact Or.inl ((ih a hfa x w hw).1 hnre)
        · cases hr with
          | single he =>
            obtain ⟨adj2, hget2, hmem⟩ := he
            rw [hget] at hget2
            injection hget2 with hh
            subst hh
            exact absurd hmem hxmem
          | @head _ b _ he hr2 =>
            obtain ⟨adj2, hget2, hmem⟩ := he
            rw [hget] at hget2
            injection hget2 with hh
            subst hh
            refine ⟨b, hmem, ?_⟩
            obtain ⟨w, hw⟩ := closed_get hcl hget hmem
            have hfb : f b < n := by
              have := descRank_get hrk hget hmem
              omega
            exact (ih b hfb x w hw).2 hr2

theorem cre_ok_reg {g : Graph} {n x y : Nat} {u : Unit}
    (h : cre g n x y = some (Except.ok u)) : ∃ adjy, mapGet g y = some adjy := by
  cases n with
  | zero =>
    rw [cre_zero] at h
    exact Option.noConfusion h
  | succ n =>
    cases hget : mapGet g y with
    | none =>
      rw [cre_succ_unreg n x hget] at h
      injection h with hh
      exact absurd hh (by simp)
    | some adjy => exact ⟨adjy, rfl⟩

/-! ## Specification of `add_edge` -/

theorem addEdgeF_unreg_x {n : Nat} {g : Graph} {x : Nat} (y : Nat) (hx : mapGet g x = none) :
    addEdgeF n g x y = some (Except.error DagError.VertexDoesNotExist, g) := by
  simp only [addEdgeF, hx]

theorem addEdgeF_unreg_y {n : Nat} {g : Graph} {x y : Nat} {adjx : VSet}
    (hx : mapGet g x = some adjx) (hy : mapGet g y = none) (hn : 0 < n) :
    addEdgeF n g x y = some (Except.error DagError.VertexDoesNotExist, g) := by
  obtain ⟨m, rfl⟩ : ∃ m, n = m + 1 := ⟨n - 1, by omega⟩
  simp only [addEdgeF, hx, cre_succ_unreg m x hy]

theorem addEdgeF_cycle {g : Graph} {f : Nat → Nat} {x y n : Nat} {adjx adjy : VSet}
    (hcl : Closed g) (hrk : DescRank g f)
    (hx : mapGet g x = some adjx) (hy : mapGet g y = some adjy) (hn : f y < n)
    (hr : Reaches g y x) :
    addEdgeF n g x y = some (Except.error DagError.EdgeExists, g) := by
  have hcre := (cre_correct hcl hrk n y hn x adjy hy).2 hr
  simp only [addEdgeF, hx, hcre]

theorem addEdgeF_ok {g : Graph} {f : Nat → Nat} {x y n : Nat} {adjx adjy : VSet}
    (hcl : Closed g) (hrk : DescRank g f)
    (hx : mapGet g x = some adjx) (hy : mapGet g y = some adjy) (hn : f y < n)
    (hnr : ¬ Reaches g y x) :
    addEdgeF n g x y = some (Except.ok adjx, (mapInsert g x (insertS adjx y)).2) := by
  have hcre := (cre_correct hcl hrk n y hn x adjy hy).1 hnr
  have hfst := mapInsert_fst g x (insertS adjx y)
  rcases hmi : mapInsert g x (insertS adjx y) with ⟨o, g2⟩
  rw [hmi] at hfst
  have ho : o = mapGet g x := hfst
  rw [hx] at ho
  subst ho
  simp only [addEdgeF, hx, hcre, hmi]

theorem addEdgeF_some_inv {n : Nat} {g : Graph} {x y : Nat} {r : Except DagError VSet}
    {g' : Graph} (h : addEdgeF n g x y = some (r, g')) :
    g' = g ∨ ∃ adjx adjy, mapGet g x = some adjx ∧ mapGet g y = some adjy ∧
      r = Except.ok adjx ∧ g' = (mapInsert g x (insertS adjx y)).2 := by
  cases hx : mapGet g x with
  | none =>
    rw [addEdgeF_unreg_x y hx] at h
    injection h with h2
    injection h2 with h3 h4
    exact Or.inl h4.symm
  | some adjx =>
    cases hcre : cre g n x y with
    | none =>
      have : addEdgeF n g x y = none := by simp only [addEdgeF, hx, hcre]
      rw [this] at h
      exact Option.noConfusion h
    | some rr =>
      cases rr with
      | error e =>
        have : addEdgeF n g x y = some (Except.error e, g) := by
          simp only [addEdgeF, hx, hcre]
        rw [this] at h
        injection h with h2
        injection h2 with h3 h4
        exact Or.inl h4.symm
      | ok u =>
        obtain ⟨adjy, hy⟩ := cre_ok_reg hcre
        have hfst := mapInsert_fst g x (insertS adjx y)
        rcases hmi : mapInsert g x (insertS adjx y) with ⟨o, g2⟩
        rw [hmi] at hfst
        have ho : o = mapGet g x := hfst
        rw [hx] at ho
        subst ho
        have : addEdgeF n g x y = some (Except.ok adjx, g2) := by
          simp only [addEdgeF, hx, hcre, hmi]
        rw [this] at h
        injection h with h2
        injection h2 with h3 h4
        refine Or.inr ⟨adjx, adjy, rfl, hy, h3.symm, ?_⟩
        rw [h4.symm, hmi]

/-! ## States reachable from the empty DAG -/

/-- States reachable from `BTreeDAG::new()` via the public mutating
operations.  A step exists whenever the Rust call returns (with `Ok` or with
`Err`); calls that panic or do not terminate (modelled `none`) produce no
successor state. -/
inductive Reach : Graph → Prop where
  | empty : Reach []
  | addV {g : Graph} (x : Nat) : Reach g → Reach (addVertex g x).2
  | addE {g : Graph} {n x y : Nat} {r : Except DagError VSet} {g' : Graph} :
      Reach g → addEdgeF n g x y = some (r, g') → Reach g'
  | remE {g : Graph} {x y : Nat} {r : Except DagError VSet} {g' : Graph} :
      Reach g → removeEdge g x y = some (r, g') → Reach g'
  | remV {g : Graph} {x : Nat} {r : Except DagError VSet} {g' : Graph} :
      Reach g → removeVertex g x = some (r, g') → Reach g'
  | pruneS {g : Graph} {n x : Nat} {r : Except DagError Unit} {g' : Graph} :
      Reach g → pruneF n g x = some (r, g') → Reach g'

theorem addVertex_wf_closed {g : Graph} (hwf : WF g) (hcl : Closed g) (x : Nat) :
    WF (addVertex g x).2 ∧ Closed (addVertex g x).2 := by
  have hws' : List.Sorted (· < ·) (keys (mapInsert g x ([] : VSet)).2) :=
    keys_sorted_mapInsert hwf.1 x []
  constructor
  · refine ⟨hws', ?_⟩
    intro p hp
    have hpg := mapGet_eq_of_mem hws' hp
    rw [mapGet_mapInsert] at hpg
    by_cases hpx : p.1 = x
    · rw [if_pos hpx] at hpg
      injection hpg with hh
      rw [← hh]
      simp
    · rw [if_neg hpx] at hpg
      exact hwf.2 _ (mapGet_mem hpg)
  · intro p hp a ha
    have hpg := mapGet_eq_of_mem hws' hp
    rw [mapGet_mapInsert] at hpg
    by_cases hpx : p.1 = x
    · rw [if_pos hpx] at hpg
      injection hpg with hh
      rw [← hh] at ha
      simp at ha
    · rw [if_neg hpx] at hpg
      obtain ⟨w, hw⟩ := closed_get hcl hpg ha
      show (mapGet (mapInsert g x []).2 a).isSome = true
      rw [mapGet_mapInsert]
      by_cases hax : a = x
      · rw [if_pos hax]; rfl
      · rw [if_neg hax, hw]; rfl

theorem removeEdge_some_inv {g : Graph} {x y : Nat} {r : Except DagError VSet} {g' : Graph}
    (h : removeEdge g x y = some (r, g')) :
    g' = g ∨ ∃ adjx adjy, mapGet g x = some adjx ∧ mapGet g y = some adjy ∧
      r = Except.ok adjx ∧
      (∀ k, mapGet g' k = if k = x then some (adjx.erase y) else mapGet g k) ∧
      keys g' = keys g := by
  cases hy : mapGet g y with
  | none =>
    rw [removeEdge_err_y hy] at h
    injection h with h2
    injection h2 with h3 h4
    exact Or.inl h4.symm
  | some adjy =>
    cases hx : mapGet g x with
    | none =>
      rw [removeEdge_err_x hy hx] at h
      injection h with h2
      injection h2 with h3 h4
      exact Or.inl h4.symm
    | some adjx =>
      obtain ⟨g2, heq, hchar, hkeys⟩ := removeEdge_ok hy hx
      rw [heq] at h
      injection h with h2
      injection h2 with h3 h4
      subst h4
      exact Or.inr ⟨adjx, adjy, rfl, rfl, h3.symm, hchar, hkeys⟩

theorem removeEdge_wf_closed {g g' : Graph} {x y : Nat} {adjx : VSet}
    (hwf : WF g) (hcl : Closed g)
    (hchar : ∀ k, mapGet g' k = if k = x then some (adjx.erase y) else mapGet g k)
    (hkeys : keys g' = keys g) (hx : mapGet g x = some adjx) :
    WF g' ∧ Closed g' := by
  have hws' : List.Sorted (· < ·) (keys g') := hkeys ▸ hwf.1
  constructor
  · refine ⟨hws', ?_⟩
    intro p hp
    have hpg := mapGet_eq_of_mem hws' hp
    rw [hchar] at hpg
    by_cases hpx : p.1 = x
    · rw [if_pos hpx] at hpg
      injection hpg with hh
      rw [← hh]
      exact (wf_val_of_get hwf hx).sublist (List.erase_sublist y adjx)
    · rw [if_neg hpx] at hpg
      exact hwf.2 _ (mapGet_mem hpg)
  · intro p hp a ha
    have hpg := mapGet_eq_of_mem hws' hp
    rw [hchar] at hpg
    have hreg : ∃ w, mapGet g a = some w := by
      by_cases hpx : p.1 = x
      · rw [if_pos hpx] at hpg
        injection hpg with hh
        rw [← hh] at ha
        exact closed_get hcl hx (List.mem_of_mem_erase ha)
      · rw [if_neg hpx] at hpg
        exact closed_get hcl hpg ha
    obtain ⟨w, hw⟩ := hreg
    show (mapGet g' a).isSome = true
    rw [hchar]
    by_cases hax : a = x
    · rw [if_pos hax]; rfl
    · rw [if_neg hax, hw]; rfl

theorem addEdge_insert_wf_closed {g : Graph} {x y : Nat} {adjx adjy : VSet}
    (hwf : WF g) (hcl : Closed g) (hx : mapGet g x = some adjx)
    (hy : mapGet g y = some adjy) :
    WF (mapInsert g x (insertS adjx y)).2 ∧ Closed (mapInsert g x (insertS adjx y)).2 := by
  have hkeys : keys (mapInsert g x (insertS adjx y)).2 = keys g :=
    keys_mapInsert_some _ hx
  have hws' : List.Sorted (· < ·) (keys (mapInsert g x (insertS adjx y)).2) :=
    hkeys ▸ hwf.1
  constructor
  · refine ⟨hws', ?_⟩
    intro p hp
    have hpg := mapGet_eq_of_mem hws' hp
    rw [mapGet_mapInsert] at hpg
    by_cases hpx : p.1 = x
    · rw [if_pos hpx] at hpg
      injection hpg with hh
      rw [← hh]
      exact insertS_sorted (wf_val_of_get hwf hx) y
    · rw [if_neg hpx] at hpg
      exact hwf.2 _ (mapGet_mem hpg)
  · intro p hp a ha
    have hpg := mapGet_eq_of_mem hws' hp
    rw [mapGet_mapInsert] at hpg
    have hreg : ∃ w, mapGet g a = some w := by
      by_cases hpx : p.1 = x
      · rw [if_pos hpx] at hpg
        injection hpg with hh
        rw [← hh] at ha
        rcases mem_of_mem_insertS ha with rfl | ha2
        · exact ⟨adjy, hy⟩
        · exact closed_get hcl hx ha2
      · rw [if_neg hpx] at hpg
        exact closed_get hcl hpg ha
    obtain ⟨w, hw⟩ := hreg
    show (mapGet (mapInsert g x (insertS adjx y)).2 a).isSome = true
    rw [mapGet_mapInsert]
    by_cases hax : a = x
    · rw [if_pos hax]; rfl
    · rw [if_neg hax, hw]; rfl

theorem removeVertex_step_inv {g : Graph} {x : Nat} {r : Except DagError VSet} {g' : Graph}
    (hwf : WF g) (hcl : Closed g) (h : removeVertex g x = some (r, g')) :
    WF g' ∧ Closed g' := by
  cases r with
  | error e =>
    obtain ⟨rfl, -, -⟩ := removeVertex_error hwf.1 h
    exact ⟨hwf, hcl⟩
  | ok s =>
    have hpost := removeVertex_post hwf h
    exact ⟨hpost.1, hpost.2.1 hcl⟩

/-- The structural invariant of every reachable state: the representation is
well-formed and every successor is itself a registered key. -/
theorem reach_wf_closed {g : Graph} (h : Reach g) : WF g ∧ Closed g := by
  induction h with
  | empty =>
    refine ⟨⟨by simp [keys], by simp⟩, ?_⟩
    intro p hp
    simp at hp
  | addV x hg ih => exact addVertex_wf_closed ih.1 ih.2 x
  | addE hg he ih =>
    rcases addEdgeF_some_inv he with rfl | ⟨adjx, adjy, hx, hy, hr, rfl⟩
    · exact ih
    · exact addEdge_insert_wf_closed ih.1 ih.2 hx hy
  | remE hg he ih =>
    rcases removeEdge_some_inv he with rfl | ⟨adjx, adjy, hx, hy, hr, hchar, hkeys⟩
    · exact ih
    · exact removeEdge_wf_closed ih.1 ih.2 hchar hkeys hx
  | remV hg he ih => exact removeVertex_step_inv ih.1 ih.2 he
  | pruneS hg he ih =>
    have hpost := (prune_post _).1 _ _ _ _ ih.1 he
    exact ⟨hpost.1, hpost.2.1 ih.2⟩

/-! ## The claims -/

/-- C1: the claimed acyclicity invariant does not hold of the code.  From the
reachable one-vertex state `[(0, [])]`, the call `add_edge(0, 0)` succeeds
(it does not return the cycle error and does not leave the map unchanged)
and produces the state `[(0, [0])]`, in which the registered vertex `0`
reaches itself: a directed self-loop cycle. -/
theorem C1_self_loop_accepted :
    Reach [(0, [])] ∧
    addEdgeF 2 [(0, [])] 0 0 = some (Except.ok [], [(0, [0])]) ∧
    Reaches [(0, [0])] 0 0 := by
  refine ⟨Reach.addV 0 Reach.empty, ?_, Reaches.single ⟨[0], rfl, by simp⟩⟩
  simp [addEdgeF, cre, creAll, mapGet, mapInsert, insertS]

/-- C2: `remove_vertex` on an unregistered key does not return the
`VertexNotFound` error: in the reachable state `[(0, [])]` the call
`remove_vertex(1)` reaches `self.vertices.remove(&1).unwrap()` with `None`
and panics (modelled by `none`), contradicting the claim (and the code's own
comments, which assert an error would have been returned before the
`unwrap`). -/
theorem C2_remove_vertex_unregistered_panics :
    Reach [(0, [])] ∧ removeVertex [(0, [])] 1 = none :=
  ⟨Reach.addV 0 Reach.empty, rfl⟩

/-- C3 counterexample: with only `0` registered, `add_edge(0, 1)` does not
succeed as the claim states; it fails with `VertexDoesNotExist` and leaves
the map unchanged, because the cycle check errors on the unregistered
target `1` and `add_edge` propagates that error. -/
theorem C3_counterexample :
    Reach [(0, [])] ∧
    addEdgeF 2 [(0, [])] 0 1 =
      some (Except.error DagError.VertexDoesNotExist, [(0, [])]) := by
  refine ⟨Reach.addV 0 Reach.empty, ?_⟩
  simp [addEdgeF, cre, creAll, mapGet]

/-- C3 amended: for every registered vertex `x` and every vertex `y` that is
not a registered key, `add_edge(x, y)` fails with `VertexDoesNotExist` (the
spec's `VertexNotFound`) and leaves the map unchanged. -/
theorem C3_unregistered_target_rejected {n : Nat} {g : Graph} {x y : Nat} {adjx : VSet}
    (hx : mapGet g x = some adjx) (hy : mapGet g y = none) (hn : 0 < n) :
    addEdgeF n g x y = some (Except.error DagError.VertexDoesNotExist, g) :=
  addEdgeF_unreg_y hx hy hn

/-- Witness for C3 at a concrete input. -/
theorem C3_witness :
    addEdgeF 3 [(5, [])] 5 7 = some (Except.error DagError.VertexDoesNotExist, [(5, [])]) :=
  C3_unregistered_target_rejected rfl rfl (by omega)

/-- C4: on the diamond `0→1, 0→2, 1→3, 2→3` the prune of `0` does empty the
graph with no error, as the claim says; but the claim's universal statement
fails: in the reachable DAG `0→1, 0→3, 1→3` (a registered vertex `0` and a
graph built solely from successful public calls), `prune(0)` panics — by the
time the cascade returns to `0`'s second child `3`, vertex `3` has already
been deleted through `1`, nothing references it, and `remove_vertex(3)`
`unwrap`s `None`.  No fuel makes the call return (modelled: `none` for every
fuel). -/
theorem C4_prune_diamond_ok_but_shared_child_panics :
    pruneF 10 [(0, [1, 2]), (1, [3]), (2, [3]), (3, [])] 0 = some (Except.ok (), []) ∧
    Reach [(0, [1, 3]), (1, [3]), (3, [])] ∧
    ∀ n : Nat, pruneF n [(0, [1, 3]), (1, [3]), (3, [])] 0 = none := by
  refine ⟨?_, ?_, ?_⟩
  · simp [pruneF, pruneList, removeVertex, stripEdges, removeEdge, mapGet, mapInsert,
      mapRemove]
  · have r1 : Reach [(0, ([] : VSet))] := Reach.addV 0 Reach.empty
    have r2 : Reach [(0, ([] : VSet)), (1, [])] := Reach.addV 1 r1
    have r3 : Reach [(0, ([] : VSet)), (1, []), (3, [])] := Reach.addV 3 r2
    have e1 : addEdgeF 2 [(0, ([] : VSet)), (1, []), (3, [])] 0 1 =
        some (Except.ok [], [(0, [1]), (1, []), (3, [])]) := by
      simp [addEdgeF, cre, creAll, mapGet, mapInsert, insertS]
    have r4 : Reach [(0, [1]), (1, ([] : VSet)), (3, [])] := Reach.addE r3 e1
    have e2 : addEdgeF 2 [(0, [1]), (1, ([] : VSet)), (3, [])] 0 3 =
        some (Except.ok [1], [(0, [1, 3]), (1, []), (3, [])]) := by
      simp [addEdgeF, cre, creAll, mapGet, mapInsert, insertS]
    have r5 : Reach [(0, [1, 3]), (1, ([] : VSet)), (3, [])] := Reach.addE r4 e2
    have e3 : addEdgeF 2 [(0, [1, 3]), (1, ([] : VSet)), (3, [])] 1 3 =
        some (Except.ok [], [(0, [1, 3]), (1, [3]), (3, [])]) := by
      simp [addEdgeF, cre, creAll, mapGet, mapInsert, insertS]
    exact Reach.addE r5 e3
  · intro n
    rcases Nat.lt_or_ge n 3 with hn | hn
    · interval_cases n
      · exact pruneF_zero _ _
      · simp [pruneF, pruneList, removeVertex, stripEdges, removeEdge, mapGet, mapInsert,
          mapRemove]
      · simp [pruneF, pruneList, removeVertex, stripEdges, removeEdge, mapGet, mapInsert,
          mapRemove]
    · obtain ⟨m, rfl⟩ : ∃ m, n = m + 3 := ⟨n - 3, by omega⟩
      have h1 : removeVertex [(0, [1, 3]), (1, [3]), (3, [])] 0 =
          some (Except.ok [1, 3], [(1, [3]), (3, [])]) := by rfl
      have h2 : removeVertex [(1, [3]), (3, [])] 1 =
          some (Except.ok [3], [(3, [])]) := by rfl
      have h3 : removeVertex [(3, ([] : VSet))] 3 = some (Except.ok [], []) := by rfl
      have h4 : pruneF (m + 1) [(3, ([] : VSet))] 3 = some (Except.ok (), []) := by
        rw [pruneF_rv_ok m h3, pruneList_nil]
      have h5 : pruneF (m + 2) [(1, [3]), (3, [])] 1 = some (Except.ok (), []) := by
        show pruneF ((m + 1) + 1) [(1, [3]), (3, [])] 1 = some (Except.ok (), [])
        rw [pruneF_rv_ok (m + 1) h2, pruneList_cons_ok [] h4, pruneList_nil]
      have h6 : removeVertex ([] : Graph) 3 = none := by rfl
      show pruneF ((m + 2) + 1) [(0, [1, 3]), (1, [3]), (3, [])] 0 = none
      rw [pruneF_rv_ok (m + 2) h1, pruneList_cons_ok [3] h5]
      exact pruneList_cons_none []
        (show pruneF (m + 2) ([] : Graph) 3 = none from pruneF_rv_none (m + 1) h6)

/-- C5 counterexample: with only `0` registered, the target `1` is not
registered and `0` is not reachable from `1`; yet `add_edge(0, 1)` fails
with the `VertexDoesNotExist` error instead of the search dead-ending the
unregistered frontier vertex as "not reachable". -/
theorem C5_counterexample :
    Reach [(0, [])] ∧ mapGet [(0, ([] : VSet))] 1 = none ∧
    ¬ Reaches [(0, ([] : VSet))] 1 0 ∧
    addEdgeF 2 [(0, [])] 0 1 =
      some (Except.error DagError.VertexDoesNotExist, [(0, [])]) := by
  refine ⟨Reach.addV 0 Reach.empty, rfl,
    not_reaches_of_get_none (show mapGet [(0, ([] : VSet))] 1 = none from rfl) 0, ?_⟩
  simp [addEdgeF, cre, creAll, mapGet]

/-- C5 amended: in a closed, acyclic state (acyclicity given by
a descending rank, which bounds the recursion and fixes the fuel): for a
registered target `y` the call `add_edge(x, y)` fails with the cycle error
`EdgeExists` (the spec's `CycleDetected`) exactly when `x` is already
reachable from `y`, and on that failure the map is unchanged; for an
unregistered `y` the search does not treat the branch as "not reachable" —
the `VertexDoesNotExist` error propagates and `add_edge` fails with it,
again leaving the map unchanged. -/
theorem C5_cycle_error_iff_reachable {g : Graph} {f : Nat → Nat} {x y n : Nat} {adjx : VSet}
    (hcl : Closed g) (hrk : DescRank g f)
    (hx : mapGet g x = some adjx) (hn : f y < n) :
    (∀ adjy, mapGet g y = some adjy →
      (addEdgeF n g x y = some (Except.error DagError.EdgeExists, g) ↔ Reaches g y x)) ∧
    (mapGet g y = none →
      addEdgeF n g x y = some (Except.error DagError.VertexDoesNotExist, g)) := by
  constructor
  · intro adjy hy
    constructor
    · intro heq
      by_contra hnr
      rw [addEdgeF_ok hcl hrk hx hy hn hnr] at heq
      injection heq with h2
      injection h2 with h3 h4
      exact absurd h3 (by simp)
    · intro hr
      exact addEdgeF_cycle hcl hrk hx hy hn hr
  · intro hy
    exact addEdgeF_unreg_y hx hy (by omega)

/-- Witness for C5 at a concrete input: in the DAG `0 → 1`, adding the edge
`1 → 0` is rejected with the cycle error. -/
theorem C5_witness :
    addEdgeF 2 [(0, [1]), (1, [])] 1 0 =
      some (Except.error DagError.EdgeExists, [(0, [1]), (1, [])]) :=
  ((@C5_cycle_error_iff_reachable [(0, [1]), (1, [])] (fun v => if v = 0 then 1 else 0)
      1 0 2 []
      (by unfold Closed; decide) (by unfold DescRank; decide)
      rfl (by decide)).1 [1] rfl).2
    (Reaches.single ⟨[1], rfl, by simp⟩)

/-- C6: not every operation terminates on every reachable state.  The state
`[(0, [0]), (1, [])]` is reachable (vertex `0`, the accepted self-loop
`0 → 0` of C1, then vertex `1`), and on it `add_edge(1, 0)` never returns:
the recursive cycle check follows the self-loop forever (modelled: the
fuelled search yields `none` for every fuel bound). -/
theorem C6_add_edge_diverges_on_reachable_state :
    Reach [(0, [0]), (1, [])] ∧
    ∀ n : Nat, addEdgeF n [(0, [0]), (1, [])] 1 0 = none := by
  constructor
  · have r1 : Reach [(0, ([] : VSet))] := Reach.addV 0 Reach.empty
    have e1 : addEdgeF 2 [(0, ([] : VSet))] 0 0 = some (Except.ok [], [(0, [0])]) := by
      simp [addEdgeF, cre, creAll, mapGet, mapInsert, insertS]
    have r2 : Reach [(0, [0])] := Reach.addE r1 e1
    exact Reach.addV 1 r2
  · have hcre : ∀ n, cre [(0, [0]), (1, [])] n 1 0 = none := by
      intro n
      induction n with
      | zero => exact cre_zero _ _ _
      | succ n ih =>
        rw [cre_succ_rec n (show mapGet [(0, [0]), (1, [])] 0 = some [0] from rfl)
          (by simp)]
        exact creAll_cons_none [] ih
    intro n
    simp only [addEdgeF, show mapGet [(0, [0]), (1, [])] 1 = some [] from rfl, hcre n]

/-- C7: no dangling incoming edges.  In a well-formed state: whenever
`remove_vertex(x)` succeeds, no successor set that can be looked up in the
resulting map contains `x`; and whenever a `prune` call returns and has
deleted a formerly registered vertex `d`, no successor set of the resulting
map contains `d`. -/
theorem C7_no_dangling_incoming_edges {g : Graph} (hwf : WF g) :
    (∀ x s g', removeVertex g x = some (Except.ok s, g') →
      ∀ k adj, mapGet g' k = some adj → x ∉ adj) ∧
    (∀ n x r g' d, pruneF n g x = some (r, g') →
      mapGet g d ≠ none → mapGet g' d = none →
      ∀ k adj, mapGet g' k = some adj → d ∉ adj) := by
  constructor
  · intro x s g' h k adj hk
    have hpost := removeVertex_post hwf h
    obtain ⟨adjx, hget, -, hx', -, -⟩ := removeVertex_ok_inv hwf.1 h
    exact hpost.2.2.2.2 x (by rw [hget]; simp) hx' k adj hk
  · intro n x r g' d h hdsome hdnone k adj hk
    have hpost := (prune_post n).1 g x r g' hwf h
    exact hpost.2.2.2.2 d hdsome hdnone k adj hk

/-- Witness for C7 at a concrete input: removing vertex `1` from the DAG
`0 → 1` strips the incoming edge, and the pruned diamond leaves nothing
referencing the removed root. -/
theorem C7_witness :
    removeVertex [(0, [1]), (1, [])] 1 = some (Except.ok [], [(0, [])]) ∧
    (1 : Nat) ∉ ([] : VSet) :=
  ⟨rfl, (@C7_no_dangling_incoming_edges [(0, [1]), (1, [])] (by unfold WF; decide)).1
    1 [] [(0, [])]
    (show removeVertex [(0, [1]), (1, [])] 1 = some (Except.ok [], [(0, [])]) from rfl)
    0 [] rfl⟩

/-- C8: `remove_edge` is idempotent.  For registered `x` and `y` the first
call succeeds returning the previous successor set, the second call succeeds
as well (removing the now absent edge is not an error), and the graph after
the second call is exactly the graph after the first. -/
theorem C8_remove_edge_idempotent {g : Graph} {x y : Nat} {adjx adjy : VSet}
    (hwf : WF g) (hx : mapGet g x = some adjx) (hy : mapGet g y = some adjy) :
    ∃ g1, removeEdge g x y = some (Except.ok adjx, g1) ∧
      removeEdge g1 x y = some (Except.ok (adjx.erase y), g1) := by
  obtain ⟨g1, heq, hchar, hkeys⟩ := removeEdge_ok hy hx
  refine ⟨g1, heq, ?_⟩
  have hy1 : ∃ w, mapGet g1 y = some w := by
    by_cases hyx : y = x
    · exact ⟨adjx.erase y, by rw [hchar, if_pos hyx]⟩
    · exact ⟨adjy, by rw [hchar, if_neg hyx]; exact hy⟩
  obtain ⟨w, hw⟩ := hy1
  have hx1 : mapGet g1 x = some (adjx.erase y) := by rw [hchar, if_pos rfl]
  have hnd : adjx.Nodup := (wf_val_of_get hwf hx).nodup
  have herase : (adjx.erase y).erase y = adjx.erase y :=
    List.erase_of_not_mem hnd.not_mem_erase
  have hmi : mapInsert g1 x ((adjx.erase y).erase y) = (some (adjx.erase y), g1) := by
    rw [herase]
    have ha : (mapInsert g1 x (adjx.erase y)).1 = some (adjx.erase y) := by
      rw [mapInsert_fst]; exact hx1
    have hb : (mapInsert g1 x (adjx.erase y)).2 = g1 := mapInsert_get_self hx1
    rcases hmm : mapInsert g1 x (adjx.erase y) with ⟨o, gg⟩
    rw [hmm] at ha hb
    have ho : o = some (adjx.erase y) := ha
    have hg : gg = g1 := hb
    rw [ho, hg]
  simp only [removeEdge, hw, hx1, hmi]

/-- Witness for C8 at a concrete input. -/
theorem C8_witness :
    ∃ g1, removeEdge [(0, [1]), (1, [])] 0 1 = some (Except.ok [1], g1) ∧
      removeEdge g1 0 1 = some (Except.ok ([1].erase 1), g1) :=
  @C8_remove_edge_idempotent [(0, [1]), (1, [])] 0 1 [1] []
    (by unfold WF; decide) rfl rfl

/-- C9: re-adding an existing edge is idempotent.  In a well-formed, closed
state with a descending rank (no cycle exists), if `y` is already in `x`'s
successor set then `add_edge(x, y)` succeeds, returns the previous successor
set, and leaves the graph unchanged. -/
theorem C9_re_add_existing_edge {g : Graph} {f : Nat → Nat} {x y n : Nat} {adjx : VSet}
    (hwf : WF g) (hcl : Closed g) (hrk : DescRank g f)
    (hx : mapGet g x = some adjx) (hy : y ∈ adjx) (hn : f y < n) :
    addEdgeF n g x y = some (Except.ok adjx, g) := by
  obtain ⟨adjy, hgety⟩ := closed_get hcl hx hy
  have hnr : ¬ Reaches g y x := by
    intro hr
    have h1 : f x < f y := reaches_rank hrk hr
    have h2 : f y < f x := descRank_get hrk hx hy
    omega
  rw [addEdgeF_ok hcl hrk hx hgety hn hnr,
    insertS_eq_of_mem (wf_val_of_get hwf hx) hy, mapInsert_get_self hx]

/-- Witness for C9 at a concrete input: re-adding the edge `0 → 1` of the
DAG `0 → 1` succeeds and changes nothing. -/
theorem C9_witness :
    addEdgeF 2 [(0, [1]), (1, [])] 0 1 = some (Except.ok [1], [(0, [1]), (1, [])]) :=
  @C9_re_add_existing_edge [(0, [1]), (1, [])] (fun v => if v = 0 then 1 else 0) 0 1 2 [1]
    (by unfold WF; decide) (by unfold Closed; decide) (by unfold DescRank; decide)
    rfl (by decide) (by decide)

/-- C10: closed successor sets.  In every state reachable from the empty DAG
via the public operations, every element of every stored successor set is
itself a registered key of the map. -/
theorem C10_successor_sets_closed {g : Graph} (h : Reach g) :
    ∀ k adj, mapGet g k = some adj → ∀ a ∈ adj, ∃ w, mapGet g a = some w := by
  intro k adj hk a ha
  exact closed_get (reach_wf_closed h).2 hk ha

/-- Witness for C10 at a concrete reachable state: in the reachable DAG
`0 → 1`, the successor `1` is itself registered. -/
theorem C10_witness : ∃ w, mapGet [(0, [1]), (1, [])] 1 = some w := by
  have r1 : Reach [(0, ([] : VSet))] := Reach.addV 0 Reach.empty
  have r2 : Reach [(0, ([] : VSet)), (1, [])] := Reach.addV 1 r1
  have e1 : addEdgeF 2 [(0, ([] : VSet)), (1, [])] 0 1 =
      some (Except.ok [], [(0, [1]), (1, [])]) := by
    simp [addEdgeF, cre, creAll, mapGet, mapInsert, insertS]
  have r3 : Reach [(0, [1]), (1, ([] : VSet))] := Reach.addE r2 e1
  exact C10_successor_sets_closed r3 0 [1] rfl 1 (by simp)

end BtreeDag
